import Mathlib

/-!
Shallow embedding of the Phabricator connector's pagination and
synchronization core (`client.py` and `phabricator.py`).

Conventions of the embedding:
* Raw JSON rows are flattened into structures carrying exactly the fields
  the Python code reads.
* The remote endpoint of one traversal is modelled by the list of responses
  it returns to the successive fetch calls; `none` stands for the Python
  `None`, the explicit empty signal.
* The caller-supplied query dict is threaded explicitly; `finalQuery` is the
  state of that dict after the traversal (the Python code mutates the dict
  in place via `query[paging_direction] = ...`).
* A parser that can raise (`_comment_parser` indexes `comments[0]`) returns
  an `Option`, with `none` for the raised exception.
-/

namespace Phab

/-- Paging direction, the non-trivial values of `_get_paging_direction`. -/
inductive Dir where
  | before
  | after
deriving DecidableEq, Repr

/-- The `cursor` object attached to every page: a `before` and an `after`
token, each possibly null. -/
structure Cursor where
  before : Option String
  after : Option String
deriving DecidableEq, Repr

/-- The lookup `cursor[direction]`. -/
def cursorGet (c : Cursor) : Dir → Option String
  | Dir.before => c.before
  | Dir.after => c.after

/-- Python `_get_paging_direction`: "before" if `cursor["before"]` is not null,
else "after" if `cursor["after"]` is not null, else `None`. -/
def getPagingDirection (c : Cursor) : Option Dir :=
  if c.before.isSome then some Dir.before
  else if c.after.isSome then some Dir.after
  else none

/-- The query-parameter mapping passed to `_get_objects`.  The fetcher only
ever writes the `before`/`after` keys, so those are explicit fields; every
other entry of the dict is kept abstract in `rest`. -/
structure Query where
  before : Option String
  after : Option String
  rest : List (String × String)
deriving DecidableEq, Repr

/-- The in-place dict update `query[paging_direction] = token`. -/
def querySet (q : Query) : Dir → String → Query
  | Dir.before, t => { q with before := some t }
  | Dir.after, t => { q with after := some t }

/-- A non-empty endpoint response: `{"data": rows, "cursor": {...}}`. -/
structure RawPage (ρ : Type) where
  data : List ρ
  cursor : Cursor
deriving DecidableEq, Repr

/-- Result of one `_get_objects` traversal: the parsed records, the trace of
query states at each fetch call (one entry per call of the endpoint), and
the final state of the caller's query dict. -/
structure FetchResult (α : Type) where
  objects : List α
  queries : List Query
  finalQuery : Query
deriving DecidableEq, Repr

/-- The `while True` loop of `_get_objects`, run against the scripted list
of endpoint responses.  State: current query dict, locked paging direction,
and the `is_first_page` flag. -/
def getObjectsAux {ρ α : Type} (parser : RawPage ρ → List α) :
    List (Option (RawPage ρ)) → Query → Option Dir → Bool → FetchResult α
  | [], q, _, _ => ⟨[], [], q⟩
  | none :: _, q, _, _ => ⟨[], [q], q⟩
  | some page :: rs, q, dir, first =>
    match (if first then getPagingDirection page.cursor else dir) with
    | none => ⟨parser page, [q], q⟩
    | some d =>
      match cursorGet page.cursor d with
      | none => ⟨parser page, [q], q⟩
      | some tok =>
        ⟨parser page ++ (getObjectsAux parser rs (querySet q d tok) (some d) false).objects,
         q :: (getObjectsAux parser rs (querySet q d tok) (some d) false).queries,
         (getObjectsAux parser rs (querySet q d tok) (some d) false).finalQuery⟩

/-- Python `_get_objects`: enter the loop with no direction locked and
`is_first_page = True`. -/
def getObjects {ρ α : Type} (parser : RawPage ρ → List α)
    (responses : List (Option (RawPage ρ))) (query : Query) : FetchResult α :=
  getObjectsAux parser responses query none true

/-- The `PhabricatorComment` dataclass. -/
structure PhabricatorComment where
  id : String
  phid : String
  author_phid : String
  timestamp : Int
  contents : String
deriving DecidableEq, Repr

/-- The `PhabricatorWiki` dataclass. -/
structure PhabricatorWiki where
  id : String
  phid : String
  author_phid : String
  timestamp : Int
  contents : String
  name : String
deriving DecidableEq, Repr

/-- The `PhabricatorTask` dataclass. -/
structure PhabricatorTask where
  id : String
  phid : String
  author_phid : String
  timestamp : Int
  contents : String
  name : String
deriving DecidableEq, Repr

/-- The fields read from one element of a transaction's `"comments"` list. -/
structure CommentPayload where
  id : String
  phid : String
  authorPHID : String
  dateModified : Int
  contentRaw : String
deriving DecidableEq, Repr

/-- One element of `results["data"]` for `transaction.search`. -/
structure Transaction where
  type : String
  comments : List CommentPayload
deriving DecidableEq, Repr

/-- The `PhabricatorComment(...)` construction of `_comment_parser`. -/
def commentOfPayload (c : CommentPayload) : PhabricatorComment :=
  ⟨c.id, c.phid, c.authorPHID, c.dateModified, c.contentRaw⟩

/-- Python `_comment_parser`: walk `results["data"]`; for each transaction of type
"comment" read `transaction["comments"][0]` (result `none` when that list is
empty, mirroring the Python `IndexError` aborting the whole page), and keep
the comment when `dateModified >= date_modified`. -/
def parseComments : List Transaction → Int → Option (List PhabricatorComment)
  | [], _ => some []
  | t :: ts, dm =>
    if t.type = "comment" then
      match t.comments with
      | [] => none
      | c :: _ =>
        if dm ≤ c.dateModified then
          (parseComments ts dm).map (fun rest => commentOfPayload c :: rest)
        else parseComments ts dm
    else parseComments ts dm

/-- The fields `_wiki_parser` reads from one row of a phriction page. -/
structure WikiRow where
  id : String
  phid : String
  dateModified : Int
  authorPHID : String
  title : String
  contentRaw : String
deriving DecidableEq, Repr

/-- Python-dict insertion with insertion-order preservation: overwriting an
existing key keeps its position, a new key is appended at the end. -/
def insertWiki (m : List (String × PhabricatorWiki)) (k : String)
    (v : PhabricatorWiki) : List (String × PhabricatorWiki) :=
  if m.any (fun p => p.1 == k) then
    m.map (fun p => if p.1 == k then (k, v) else p)
  else m ++ [(k, v)]

/-- The `PhabricatorWiki(...)` construction of `_wiki_parser`. -/
def wikiOfRow (r : WikiRow) : PhabricatorWiki :=
  ⟨r.id, r.phid, r.authorPHID, r.dateModified, r.contentRaw, r.title⟩

/-- Python `_wiki_parser`: insert the rows of one page with
`dateModified >= date_modified` into a freshly created phid-keyed dict (the
dict is local to the call, hence per page) and return `list(dict.values())`. -/
def parseWikis (rows : List WikiRow) (dm : Int) : List PhabricatorWiki :=
  (rows.foldl
    (fun m r => if dm ≤ r.dateModified then insertWiki m r.phid (wikiOfRow r) else m)
    []).map Prod.snd

/-- The parser that `get_all_wikis` hands to `_get_objects`
(`_wiki_parser` with the watermark keyword bound). -/
def wikiPageOp (dm : Int) (page : RawPage WikiRow) : List PhabricatorWiki :=
  parseWikis page.data dm

/-- The heterogeneous `phab_objects` list built by `_feed_new_documents`. -/
inductive PhabObject where
  | task : PhabricatorTask → PhabObject
  | wiki : PhabricatorWiki → PhabObject
  | comment : PhabricatorComment → PhabObject
deriving DecidableEq, Repr

/-- Python `_fetch_all_objects`: all tasks first, then all wikis. -/
def fetchAllObjects (tasks : List PhabricatorTask) (wikis : List PhabricatorWiki) :
    List PhabObject :=
  tasks.map PhabObject.task ++ wikis.map PhabObject.wiki

/-- Python `_fetch_all_comments`: one `get_object_comments` sub-traversal per
document, in list order, extending a single comments list.  The per-object
comment fetch is abstracted as `getComments`. -/
def fetchAllComments (getComments : PhabObject → List PhabricatorComment) :
    List PhabObject → List PhabricatorComment
  | [] => []
  | d :: ds => getComments d ++ fetchAllComments getComments ds

/-- The merged list that `_feed_new_documents` hands to
`_index_all_documents`: the top-level objects extended with all comments. -/
def mergedDocuments (tasks : List PhabricatorTask) (wikis : List PhabricatorWiki)
    (getComments : PhabObject → List PhabricatorComment) : List PhabObject :=
  fetchAllObjects tasks wikis
    ++ (fetchAllComments getComments (fetchAllObjects tasks wikis)).map PhabObject.comment

/-- The `BasicDocument` export record with the fields `_index_all_documents` populates.
`type` is always the `DocumentType.COMMENT` tag; the timestamp keeps the
unix value handed to `datetime.fromtimestamp`. -/
structure BasicDocument where
  id : String
  data_source_id : Nat
  type : String
  title : String
  content : String
  timestamp : Int
  author : String
  author_image_url : String
  location : String
  url : String
deriving DecidableEq, Repr

/-- The `BasicDocument(...)` construction: the title is "Comment" for a
`PhabricatorComment` (the `isinstance` branch) and the entity's `name`
otherwise. -/
def toBasicDocument (dsid : Nat) : PhabObject → BasicDocument
  | PhabObject.task t =>
    ⟨t.id, dsid, "comment", t.name, t.contents, t.timestamp, t.author_phid, "@@@", "@@@", "@@@"⟩
  | PhabObject.wiki w =>
    ⟨w.id, dsid, "comment", w.name, w.contents, w.timestamp, w.author_phid, "@@@", "@@@", "@@@"⟩
  | PhabObject.comment c =>
    ⟨c.id, dsid, "comment", "Comment", c.contents, c.timestamp, c.author_phid, "@@@", "@@@", "@@@"⟩

/-- Python `PhabricatorDataSource.FEED_BATCH_SIZE`. -/
def FEED_BATCH_SIZE : Nat := 512

/-- The loop of `_index_all_documents`: `parsed` is the current accumulator,
`total` the running `total_fed`.  Each flushed batch is recorded in order,
and the accumulator remainder is always fed once more after the loop, even
when it is empty. -/
def indexLoop (dsid : Nat) : List PhabObject → List BasicDocument → Nat →
    List (List BasicDocument) × Nat
  | [], parsed, total => ([parsed], total + parsed.length)
  | d :: ds, parsed, total =>
    if FEED_BATCH_SIZE ≤ (parsed ++ [toBasicDocument dsid d]).length then
      ((parsed ++ [toBasicDocument dsid d]) ::
          (indexLoop dsid ds []
            (total + (parsed ++ [toBasicDocument dsid d]).length)).1,
        (indexLoop dsid ds []
          (total + (parsed ++ [toBasicDocument dsid d]).length)).2)
    else indexLoop dsid ds (parsed ++ [toBasicDocument dsid d]) total

/-- Outcome of `_index_all_documents`: the flushed batches in feed order,
the final `total_fed`, and whether the closing count log line is emitted. -/
structure IndexResult where
  batches : List (List BasicDocument)
  totalFed : Nat
  reported : Bool
deriving DecidableEq, Repr

/-- Python `_index_all_documents`. -/
def indexAllDocuments (dsid : Nat) (documents : List PhabObject) : IndexResult :=
  ⟨(indexLoop dsid documents [] 0).1, (indexLoop dsid documents [] 0).2,
    decide (0 < (indexLoop dsid documents [] 0).2)⟩

/-- Python `_feed_new_documents`. -/
def feedNewDocuments (dsid : Nat) (tasks : List PhabricatorTask)
    (wikis : List PhabricatorWiki)
    (getComments : PhabObject → List PhabricatorComment) : IndexResult :=
  indexAllDocuments dsid (mergedDocuments tasks wikis getComments)

/-- Identity row parser used for concrete runs of the generic fetcher. -/
def natParse (p : RawPage Nat) : List Nat := p.data

/-- A caller query with no cursor keys set. -/
def qInit : Query := ⟨none, none, []⟩

/-- First page of the concrete runs: `before` cursor set, so the traversal
locks direction "before". -/
def pageB : RawPage Nat := ⟨[1, 2], ⟨some "b1", none⟩⟩

/-- Second page: `before` null but `after` non-null. -/
def pageStop : RawPage Nat := ⟨[3], ⟨none, some "z"⟩⟩

/-- A page whose cursor is null in both directions. -/
def pageNil : RawPage Nat := ⟨[7], ⟨none, none⟩⟩

/-- A wiki row with phid "P" above any non-positive watermark. -/
def wRow : WikiRow := ⟨"1", "P", 5, "a", "t", "c"⟩

/-- First wiki page of the duplicate-phid run: continues via `after`. -/
def wPage1 : RawPage WikiRow := ⟨[wRow], ⟨none, some "c1"⟩⟩

/-- Second wiki page of the duplicate-phid run, repeating phid "P". -/
def wPage2 : RawPage WikiRow := ⟨[wRow], ⟨none, none⟩⟩

/-- A comment payload older than the watermark 10. -/
def cpOld : CommentPayload := ⟨"c1", "PC1", "a1", 5, "old"⟩

/-- A comment payload exactly at the watermark 10. -/
def cpEq : CommentPayload := ⟨"c2", "PC2", "a2", 10, "eq"⟩

/-- A comment payload newer than the watermark 10. -/
def cpNew : CommentPayload := ⟨"c3", "PC3", "a3", 12, "new"⟩

/-- A concrete transaction page: a non-comment entry, an old comment, a
boundary comment, and a new comment carrying a second, ignored payload. -/
def commentRows : List Transaction :=
  [⟨"status", []⟩, ⟨"comment", [cpOld]⟩, ⟨"comment", [cpEq]⟩, ⟨"comment", [cpNew, cpOld]⟩]

/-- A sample stream element for the batch-size computations. -/
def sampleObj : PhabObject := PhabObject.comment ⟨"c", "pc", "a", 0, "x"⟩

lemma getObjectsAux_none {ρ α : Type} (parser : RawPage ρ → List α)
    (rs : List (Option (RawPage ρ))) (q : Query) (dir : Option Dir) (first : Bool) :
    getObjectsAux parser (none :: rs) q dir first = ⟨[], [q], q⟩ := rfl

lemma getObjectsAux_stop {ρ α : Type} (parser : RawPage ρ → List α)
    (page : RawPage ρ) (rs : List (Option (RawPage ρ))) (q : Query) (d : Dir)
    (h : cursorGet page.cursor d = none) :
    getObjectsAux parser (some page :: rs) q (some d) false = ⟨parser page, [q], q⟩ := by
  simp [getObjectsAux, h]

lemma getObjectsAux_cont {ρ α : Type} (parser : RawPage ρ → List α)
    (page : RawPage ρ) (rs : List (Option (RawPage ρ))) (q : Query) (d : Dir) (tok : String)
    (h : cursorGet page.cursor d = some tok) :
    getObjectsAux parser (some page :: rs) q (some d) false =
      ⟨parser page ++ (getObjectsAux parser rs (querySet q d tok) (some d) false).objects,
       q :: (getObjectsAux parser rs (querySet q d tok) (some d) false).queries,
       (getObjectsAux parser rs (querySet q d tok) (some d) false).finalQuery⟩ := by
  simp [getObjectsAux, h]

lemma getObjects_first_none {ρ α : Type} (parser : RawPage ρ → List α)
    (page : RawPage ρ) (rs : List (Option (RawPage ρ))) (q : Query)
    (hd : getPagingDirection page.cursor = none) :
    getObjects parser (some page :: rs) q = ⟨parser page, [q], q⟩ := by
  simp [getObjects, getObjectsAux, hd]

lemma getObjects_first_cont {ρ α : Type} (parser : RawPage ρ → List α)
    (page : RawPage ρ) (rs : List (Option (RawPage ρ))) (q : Query) (d : Dir) (tok : String)
    (hd : getPagingDirection page.cursor = some d)
    (h : cursorGet page.cursor d = some tok) :
    getObjects parser (some page :: rs) q =
      ⟨parser page ++ (getObjectsAux parser rs (querySet q d tok) (some d) false).objects,
       q :: (getObjectsAux parser rs (querySet q d tok) (some d) false).queries,
       (getObjectsAux parser rs (querySet q d tok) (some d) false).finalQuery⟩ := by
  simp [getObjects, getObjectsAux, hd, h]

/-- A locked direction always comes with a non-null token on the page that
locked it: `_get_paging_direction` only names a field it saw non-null. -/
lemma getPagingDirection_isSome {c : Cursor} {d : Dir}
    (h : getPagingDirection c = some d) : ∃ tok, cursorGet c d = some tok := by
  unfold getPagingDirection at h
  by_cases hb : c.before.isSome = true
  · rw [if_pos hb] at h
    injection h with h
    subst h
    exact Option.isSome_iff_exists.mp hb
  · rw [if_neg hb] at h
    by_cases ha : c.after.isSome = true
    · rw [if_pos ha] at h
      injection h with h
      subst h
      exact Option.isSome_iff_exists.mp ha
    · rw [if_neg ha] at h
      exact absurd h (by simp)

/-- Locked phase, terminating on a page whose relevant cursor field is null:
objects and fetch count of the remaining iterations. -/
lemma getObjectsAux_locked_lastStop {ρ α : Type} (parser : RawPage ρ → List α) (d : Dir) :
    ∀ (mid : List (RawPage ρ)) (lastp : RawPage ρ)
      (extra : List (Option (RawPage ρ))) (q : Query),
      (∀ p ∈ mid, (cursorGet p.cursor d).isSome = true) →
      cursorGet lastp.cursor d = none →
      (getObjectsAux parser (mid.map some ++ some lastp :: extra) q (some d) false).objects
          = (mid.map parser).flatten ++ parser lastp ∧
      (getObjectsAux parser (mid.map some ++ some lastp :: extra) q (some d) false).queries.length
          = mid.length + 1 := by
  intro mid
  induction mid with
  | nil =>
    intro lastp extra q _ hlast
    simp [getObjectsAux_stop parser lastp extra q d hlast]
  | cons p mid ih =>
    intro lastp extra q hmid hlast
    obtain ⟨tok, htok⟩ := Option.isSome_iff_exists.mp (hmid p (by simp))
    rw [List.map_cons, List.cons_append, getObjectsAux_cont parser p _ q d tok htok]
    obtain ⟨h1, h2⟩ := ih lastp extra (querySet q d tok)
      (fun p hp => hmid p (by simp [hp])) hlast
    constructor
    · simp [h1]
    · simp [h2]

/-- Locked phase, terminating on the explicit empty signal: objects and
fetch count of the remaining iterations. -/
lemma getObjectsAux_locked_emptySignal {ρ α : Type} (parser : RawPage ρ → List α) (d : Dir) :
    ∀ (mid : List (RawPage ρ)) (extra : List (Option (RawPage ρ))) (q : Query),
      (∀ p ∈ mid, (cursorGet p.cursor d).isSome = true) →
      (getObjectsAux parser (mid.map some ++ none :: extra) q (some d) false).objects
          = (mid.map parser).flatten ∧
      (getObjectsAux parser (mid.map some ++ none :: extra) q (some d) false).queries.length
          = mid.length + 1 := by
  intro mid
  induction mid with
  | nil =>
    intro extra q _
    simp [getObjectsAux_none]
  | cons p mid ih =>
    intro extra q hmid
    obtain ⟨tok, htok⟩ := Option.isSome_iff_exists.mp (hmid p (by simp))
    rw [List.map_cons, List.cons_append, getObjectsAux_cont parser p _ q d tok htok]
    obtain ⟨h1, h2⟩ := ih extra (querySet q d tok) (fun p hp => hmid p (by simp [hp]))
    constructor
    · simp [h1]
    · simp [h2]

/-- In a phase locked on "before", every issued query keeps the caller's
`after` entry and `rest` entries, and carries a non-null `before` entry as
soon as the entry query does. -/
lemma getObjectsAux_before_queries {ρ α : Type} (parser : RawPage ρ → List α) :
    ∀ (rs : List (Option (RawPage ρ))) (q : Query), q.before.isSome = true →
      ∀ qq ∈ (getObjectsAux parser rs q (some Dir.before) false).queries,
        qq.before.isSome = true ∧ qq.after = q.after ∧ qq.rest = q.rest := by
  intro rs
  induction rs with
  | nil =>
    intro q hq qq hqq
    simp [getObjectsAux] at hqq
  | cons r rs ih =>
    intro q hq qq hqq
    match r with
    | none =>
      rw [getObjectsAux_none] at hqq
      simp at hqq
      subst hqq
      exact ⟨hq, rfl, rfl⟩
    | some page =>
      cases htok : cursorGet page.cursor Dir.before with
      | none =>
        rw [getObjectsAux_stop parser page rs q Dir.before htok] at hqq
        simp at hqq
        subst hqq
        exact ⟨hq, rfl, rfl⟩
      | some tok =>
        rw [getObjectsAux_cont parser page rs q Dir.before tok htok] at hqq
        simp only [List.mem_cons] at hqq
        rcases hqq with rfl | hqq
        · exact ⟨hq, rfl, rfl⟩
        · have := ih (querySet q Dir.before tok) (by simp [querySet]) qq hqq
          simpa [querySet] using this

/-- A locked phase only ever writes the locked direction's key of the
query dict: the other cursor key and all other entries are preserved. -/
lemma getObjectsAux_locked_preserves {ρ α : Type} (parser : RawPage ρ → List α) (d : Dir) :
    ∀ (rs : List (Option (RawPage ρ))) (q : Query),
      (getObjectsAux parser rs q (some d) false).finalQuery.rest = q.rest ∧
      (d = Dir.before →
        (getObjectsAux parser rs q (some d) false).finalQuery.after = q.after) ∧
      (d = Dir.after →
        (getObjectsAux parser rs q (some d) false).finalQuery.before = q.before) := by
  intro rs
  induction rs with
  | nil => intro q; simp [getObjectsAux]
  | cons r rs ih =>
    intro q
    match r with
    | none => simp [getObjectsAux_none]
    | some page =>
      cases htok : cursorGet page.cursor d with
      | none => simp [getObjectsAux_stop parser page rs q d htok]
      | some tok =>
        rw [getObjectsAux_cont parser page rs q d tok htok]
        obtain ⟨h1, h2, h3⟩ := ih (querySet q d tok)
        refine ⟨?_, ?_, ?_⟩
        · cases d <;> simpa [querySet] using h1
        · intro hd
          subst hd
          simpa [querySet] using h2 rfl
        · intro hd
          subst hd
          simpa [querySet] using h3 rfl

/-- Claim C2: when the first page carries a non-null `before` cursor, every
subsequent fetch of the traversal issues a query whose `before` parameter is
set, while the `after` parameter and all other entries stay exactly as the
caller supplied them — whatever cursors (including non-null `after` values)
any later page carries.  The first fetch uses the caller's query unchanged. -/
theorem getObjects_locks_before_direction {ρ α : Type} (parser : RawPage ρ → List α)
    (q : Query) (p0 : RawPage ρ) (rs : List (Option (RawPage ρ))) (t : String)
    (hb : p0.cursor.before = some t) :
    (getObjects parser (some p0 :: rs) q).queries.head? = some q ∧
    ∀ qq ∈ ((getObjects parser (some p0 :: rs) q).queries).tail,
      qq.before.isSome = true ∧ qq.after = q.after ∧ qq.rest = q.rest := by
  have hd : getPagingDirection p0.cursor = some Dir.before := by
    simp [getPagingDirection, hb]
  have htok : cursorGet p0.cursor Dir.before = some t := hb
  rw [getObjects_first_cont parser p0 rs q Dir.before t hd htok]
  refine ⟨rfl, ?_⟩
  intro qq hqq
  have := getObjectsAux_before_queries parser rs (querySet q Dir.before t)
    (by simp [querySet]) qq (by simpa using hqq)
  simpa [querySet] using this

/-- Witness for C2: in a concrete two-page traversal whose second page even
advertises a non-null `after` cursor, the single subsequent fetch carries a
set `before` parameter and the untouched `after`/`rest` entries. -/
theorem getObjects_locks_before_direction_witness :
    (⟨some "b1", none, []⟩ : Query).before.isSome = true ∧
    (⟨some "b1", none, []⟩ : Query).after = qInit.after ∧
    (⟨some "b1", none, []⟩ : Query).rest = qInit.rest :=
  (getObjects_locks_before_direction natParse qInit pageB [some pageStop] "b1" rfl).2
    ⟨some "b1", none, []⟩ (by decide)

/-- Claim C6: a traversal over pages whose locked-direction cursor field is
non-null on every page but the last and null on the last performs exactly one
fetch per page; and a first page with both cursor fields null means exactly
one fetch. -/
theorem getObjects_fetch_count {ρ α : Type} (parser : RawPage ρ → List α) :
    (∀ (q : Query) (p0 lastp : RawPage ρ) (mid : List (RawPage ρ))
        (extra : List (Option (RawPage ρ))) (d : Dir),
        getPagingDirection p0.cursor = some d →
        (∀ p ∈ mid, (cursorGet p.cursor d).isSome = true) →
        cursorGet lastp.cursor d = none →
        (getObjects parser (((p0 :: mid) ++ [lastp]).map some ++ extra) q).queries.length
          = mid.length + 2) ∧
    (∀ (q : Query) (p : RawPage ρ) (extra : List (Option (RawPage ρ))),
        p.cursor.before = none → p.cursor.after = none →
        (getObjects parser (some p :: extra) q).queries.length = 1) := by
  constructor
  · intro q p0 lastp mid extra d hd hmid hlast
    obtain ⟨tok, htok⟩ := getPagingDirection_isSome hd
    have hshape : ((p0 :: mid) ++ [lastp]).map some ++ extra
        = some p0 :: (mid.map some ++ some lastp :: extra) := by simp
    rw [hshape, getObjects_first_cont parser p0 _ q d tok hd htok]
    have h2 := (getObjectsAux_locked_lastStop parser d mid lastp extra
      (querySet q d tok) hmid hlast).2
    simp [h2]
  · intro q p extra hbnone hanone
    have hd : getPagingDirection p.cursor = none := by
      simp [getPagingDirection, hbnone, hanone]
    rw [getObjects_first_none parser p extra q hd]
    rfl

/-- Witness for C6: a concrete two-page traversal issues exactly two
fetches, and a concrete single page with both cursor fields null issues
exactly one. -/
theorem getObjects_fetch_count_witness :
    (getObjects natParse [some pageB, some pageStop] qInit).queries.length = 2 ∧
    (getObjects natParse [some pageNil] qInit).queries.length = 1 := by
  constructor
  · have h := (getObjects_fetch_count natParse).1 qInit pageB pageStop [] []
      Dir.before rfl (by simp) rfl
    simpa using h
  · exact (getObjects_fetch_count natParse).2 qInit pageNil [] rfl rfl

/-- Claim C7: an explicit empty-response signal terminates the traversal
normally with exactly the records of the previously parsed pages — also when
it is the very first response, in which case no records are returned. -/
theorem getObjects_empty_signal {ρ α : Type} (parser : RawPage ρ → List α) :
    (∀ (q : Query) (p0 : RawPage ρ) (mid : List (RawPage ρ))
        (extra : List (Option (RawPage ρ))) (d : Dir),
        getPagingDirection p0.cursor = some d →
        (∀ p ∈ mid, (cursorGet p.cursor d).isSome = true) →
        (getObjects parser ((p0 :: mid).map some ++ none :: extra) q).objects
            = ((p0 :: mid).map parser).flatten ∧
        (getObjects parser ((p0 :: mid).map some ++ none :: extra) q).queries.length
            = mid.length + 2) ∧
    (∀ (q : Query) (extra : List (Option (RawPage ρ))),
        getObjects parser (none :: extra) q = ⟨[], [q], q⟩) := by
  constructor
  · intro q p0 mid extra d hd hmid
    obtain ⟨tok, htok⟩ := getPagingDirection_isSome hd
    have hshape : (p0 :: mid).map some ++ none :: extra
        = some p0 :: (mid.map some ++ none :: extra) := by simp
    rw [hshape, getObjects_first_cont parser p0 _ q d tok hd htok]
    obtain ⟨h1, h2⟩ := getObjectsAux_locked_emptySignal parser d mid extra
      (querySet q d tok) hmid
    constructor
    · simp [h1]
    · simp [h2]
  · intro q extra
    rfl

/-- Witness for C7: concretely, an empty signal after one parsed page
returns that page's rows after two fetches, and an empty signal on the very
first fetch returns no records. -/
theorem getObjects_empty_signal_witness :
    (getObjects natParse [some pageB, none] qInit).objects = [1, 2] ∧
    (getObjects natParse [some pageB, none] qInit).queries.length = 2 ∧
    getObjects natParse [none] qInit = ⟨[], [qInit], qInit⟩ := by
  have h := (getObjects_empty_signal natParse).1 qInit pageB [] [] Dir.before rfl (by simp)
  exact ⟨by simpa [natParse, pageB] using h.1, by simpa using h.2,
    (getObjects_empty_signal natParse).2 qInit []⟩

/-- Claim C8 counterexample: the fetcher does mutate the caller-supplied
query mapping — after a concrete two-page traversal the caller's dict has
gained a `before` entry, so it is not left unchanged. -/
theorem getObjects_mutates_query_counterexample :
    (getObjects natParse [some pageB, some pageStop] qInit).finalQuery ≠ qInit := by
  decide

/-- Claim C8 (amended): beyond invoking the supplied operations, the only
state the traversal changes is the caller-supplied query mapping, and there
only the cursor key of the locked direction: every non-cursor entry is
preserved, and at least one of the two cursor keys is also preserved. -/
theorem getObjects_query_mutation_scope {ρ α : Type} (parser : RawPage ρ → List α)
    (responses : List (Option (RawPage ρ))) (q : Query) :
    (getObjects parser responses q).finalQuery.rest = q.rest ∧
    ((getObjects parser responses q).finalQuery.before = q.before ∨
      (getObjects parser responses q).finalQuery.after = q.after) := by
  match responses with
  | [] => exact ⟨rfl, Or.inl rfl⟩
  | none :: rs => exact ⟨rfl, Or.inl rfl⟩
  | some page :: rs =>
    cases hd : getPagingDirection page.cursor with
    | none =>
      rw [getObjects_first_none parser page rs q hd]
      exact ⟨rfl, Or.inl rfl⟩
    | some d =>
      obtain ⟨tok, htok⟩ := getPagingDirection_isSome hd
      rw [getObjects_first_cont parser page rs q d tok hd htok]
      obtain ⟨h1, h2, h3⟩ := getObjectsAux_locked_preserves parser d rs (querySet q d tok)
      cases d with
      | before =>
        exact ⟨by simpa [querySet] using h1, Or.inr (by simpa [querySet] using h2 rfl)⟩
      | after =>
        exact ⟨by simpa [querySet] using h1, Or.inl (by simpa [querySet] using h3 rfl)⟩

/-- Claim C5: on any page in which every "comment"-kind entry carries at
least one payload, the parser succeeds and returns exactly the comments of
the "comment"-kind entries whose modification time is at or above the
watermark (`dm ≤ dateModified`, so the boundary case is included); all other
entries are dropped without error. -/
theorem parseComments_filter_spec (rows : List Transaction) (dm : Int)
    (h : ∀ t ∈ rows, t.type = "comment" → t.comments ≠ []) :
    parseComments rows dm = some (rows.filterMap (fun t =>
      if t.type = "comment" then
        match t.comments with
        | [] => none
        | c :: _ => if dm ≤ c.dateModified then some (commentOfPayload c) else none
      else none)) := by
  induction rows with
  | nil => rfl
  | cons t ts ih =>
    have hts : ∀ x ∈ ts, x.type = "comment" → x.comments ≠ [] :=
      fun x hx => h x (by simp [hx])
    by_cases htype : t.type = "comment"
    · cases hcs : t.comments with
      | nil => exact absurd hcs (h t (by simp) htype)
      | cons c cs =>
        by_cases hdm : dm ≤ c.dateModified
        · simp [parseComments, htype, hcs, hdm, ih hts, List.filterMap_cons]
        · simp [parseComments, htype, hcs, hdm, ih hts, List.filterMap_cons]
    · simp [parseComments, htype, ih hts, List.filterMap_cons]

/-- Witness for C5: on a concrete page with a non-comment entry, an
out-of-date comment, a boundary comment and a fresh comment, parsing
succeeds and keeps exactly the boundary and fresh comments, in order. -/
theorem parseComments_filter_spec_witness :
    parseComments commentRows 10 = some [commentOfPayload cpEq, commentOfPayload cpNew] := by
  have h := parseComments_filter_spec commentRows 10 (by decide)
  rw [h]
  decide

/-- Claim C9: the parser reads only the first payload of each
"comment"-kind entry (truncating every payload list to its first element
does not change the result), and it fails for the whole page exactly when
some "comment"-kind entry has an empty payload list — so parsing is total
precisely under that precondition. -/
theorem parseComments_head_only_total_iff (rows : List Transaction) (dm : Int) :
    parseComments rows dm
        = parseComments (rows.map (fun t => ⟨t.type, t.comments.take 1⟩)) dm ∧
    (parseComments rows dm = none ↔ ∃ t ∈ rows, t.type = "comment" ∧ t.comments = []) := by
  induction rows with
  | nil => exact ⟨rfl, by simp [parseComments]⟩
  | cons t ts ih =>
    obtain ⟨ih1, ih2⟩ := ih
    constructor
    · by_cases htype : t.type = "comment"
      · cases hcs : t.comments with
        | nil => simp [parseComments, htype, hcs]
        | cons c cs => simp [parseComments, htype, hcs, ih1]
      · simp [parseComments, htype, ih1]
    · by_cases htype : t.type = "comment"
      · cases hcs : t.comments with
        | nil => simp [parseComments, htype, hcs]
        | cons c cs =>
          by_cases hdm : dm ≤ c.dateModified
          · simp [parseComments, htype, hcs, hdm, Option.map_eq_none', ih2]
          · simp [parseComments, htype, hcs, hdm, ih2]
      · simp [parseComments, htype, ih2]

/-- One `insertWiki` step preserves the dict invariants: pairwise-distinct
keys, and each stored wiki's `phid` equal to its key. -/
lemma insertWiki_inv (m : List (String × PhabricatorWiki)) (k : String)
    (v : PhabricatorWiki)
    (h1 : m.Pairwise (fun a b => a.1 ≠ b.1)) (h2 : ∀ p ∈ m, p.2.phid = p.1)
    (hv : v.phid = k) :
    (insertWiki m k v).Pairwise (fun a b => a.1 ≠ b.1) ∧
      ∀ p ∈ insertWiki m k v, p.2.phid = p.1 := by
  unfold insertWiki
  by_cases hmem : m.any (fun p => p.1 == k) = true
  · rw [if_pos hmem]
    have hkey : ∀ p : String × PhabricatorWiki,
        ((if p.1 == k then (k, v) else p) : String × PhabricatorWiki).1 = p.1 := by
      intro p
      by_cases hp : (p.1 == k) = true
      · have he : p.1 = k := by simpa using hp
        simp [hp, he]
      · simp [hp]
    constructor
    · rw [List.pairwise_map]
      refine h1.imp (fun {a b} hab => ?_)
      show ((if a.1 == k then (k, v) else a) : String × PhabricatorWiki).1
          ≠ ((if b.1 == k then (k, v) else b) : String × PhabricatorWiki).1
      rw [hkey a, hkey b]
      exact hab
    · intro p' hp'
      obtain ⟨p, hp, rfl⟩ := List.mem_map.mp hp'
      by_cases hp1 : (p.1 == k) = true
      · simpa [hp1] using hv
      · simpa [hp1] using h2 p hp
  · rw [if_neg hmem]
    constructor
    · rw [List.pairwise_append]
      refine ⟨h1, by simp, ?_⟩
      intro a ha b hb
      simp only [List.mem_singleton] at hb
      subst hb
      intro hk
      apply hmem
      rw [List.any_eq_true]
      exact ⟨a, ha, by simp [hk]⟩
    · intro p hp
      rcases List.mem_append.mp hp with hin | hin
      · exact h2 p hin
      · simp only [List.mem_singleton] at hin
        subst hin
        exact hv

/-- The `_wiki_parser` fold preserves the dict invariants. -/
lemma parseWikis_fold_inv (dm : Int) :
    ∀ (rows : List WikiRow) (m : List (String × PhabricatorWiki)),
      m.Pairwise (fun a b => a.1 ≠ b.1) → (∀ p ∈ m, p.2.phid = p.1) →
      (rows.foldl
        (fun m r => if dm ≤ r.dateModified then insertWiki m r.phid (wikiOfRow r) else m)
        m).Pairwise (fun a b => a.1 ≠ b.1) ∧
      ∀ p ∈ rows.foldl
        (fun m r => if dm ≤ r.dateModified then insertWiki m r.phid (wikiOfRow r) else m)
        m, p.2.phid = p.1 := by
  intro rows
  induction rows with
  | nil => intro m h1 h2; exact ⟨h1, h2⟩
  | cons r rows ih =>
    intro m h1 h2
    simp only [List.foldl_cons]
    by_cases hdm : dm ≤ r.dateModified
    · rw [if_pos hdm]
      obtain ⟨g1, g2⟩ := insertWiki_inv m r.phid (wikiOfRow r) h1 h2 rfl
      exact ih _ g1 g2
    · rw [if_neg hdm]
      exact ih m h1 h2

/-- Claim C1 counterexample: in a concrete two-page traversal whose pages
both contain a qualifying row with phid "P", the final output holds two
WikiPage records with that phid, not one — the dedup dict of `_wiki_parser`
is created afresh for every page. -/
theorem wiki_phid_collapse_counterexample :
    ((getObjects (wikiPageOp 0) [some wPage1, some wPage2] qInit).objects.filter
        (fun w => w.phid == "P")).length = 2 ∧
    ¬ ((getObjects (wikiPageOp 0) [some wPage1, some wPage2] qInit).objects.filter
        (fun w => w.phid == "P")).length = 1 := by
  decide

/-- Claim C1 (amended): the per-`phid` collapse happens within each single
page only — one parsed page never repeats a `phid`, while the same `phid`
appearing on several pages yields one surviving record per such page. -/
theorem parseWikis_phid_unique_within_page (rows : List WikiRow) (dm : Int) :
    (parseWikis rows dm).Pairwise (fun a b => a.phid ≠ b.phid) := by
  unfold parseWikis
  obtain ⟨h1, h2⟩ := parseWikis_fold_inv dm rows [] (by simp) (by simp)
  rw [List.pairwise_map]
  refine h1.imp_of_mem ?_
  intro a b ha hb hab
  show a.2.phid ≠ b.2.phid
  rw [h2 a ha, h2 b hb]
  exact hab

/-- The comment fan-out loop concatenates the per-parent comment lists in
parent order. -/
lemma fetchAllComments_eq (getComments : PhabObject → List PhabricatorComment) :
    ∀ l : List PhabObject,
      fetchAllComments getComments l = (l.map getComments).flatten := by
  intro l
  induction l with
  | nil => rfl
  | cons d ds ih => simp [fetchAllComments, ih]

/-- Claim C3: the merged sequence handed to the batch dispatcher is all
WorkItems in fetch order, then all WikiPages in fetch order, then all
comments grouped per parent in the order the parents occur in the
WorkItem+WikiPage sequence; and `_feed_new_documents` dispatches exactly
that sequence. -/
theorem mergedDocuments_order (dsid : Nat) (tasks : List PhabricatorTask)
    (wikis : List PhabricatorWiki)
    (getComments : PhabObject → List PhabricatorComment) :
    mergedDocuments tasks wikis getComments
      = tasks.map PhabObject.task ++ wikis.map PhabObject.wiki
        ++ ((tasks.map PhabObject.task ++ wikis.map PhabObject.wiki).map
              (fun o => (getComments o).map PhabObject.comment)).flatten ∧
    feedNewDocuments dsid tasks wikis getComments
      = indexAllDocuments dsid (mergedDocuments tasks wikis getComments) := by
  refine ⟨?_, rfl⟩
  simp [mergedDocuments, fetchAllObjects, fetchAllComments_eq, List.map_flatten,
    List.map_map, List.append_assoc, Function.comp_def]

/-- Invariant of the `_index_all_documents` loop, for an accumulator below
the threshold: the flushed batch sizes are full 512-chunks followed by the
remainder, the final `total_fed` counts every record, and the last flushed
batch has exactly the remainder's size. -/
lemma indexLoop_spec (dsid : Nat) :
    ∀ (ds : List PhabObject) (parsed : List BasicDocument) (total : Nat),
      parsed.length < 512 →
      ((indexLoop dsid ds parsed total).1.map List.length
          = List.replicate ((parsed.length + ds.length) / 512) 512
              ++ [(parsed.length + ds.length) % 512]) ∧
      (indexLoop dsid ds parsed total).2 = total + parsed.length + ds.length ∧
      (∃ lb, (indexLoop dsid ds parsed total).1.getLast? = some lb ∧
        lb.length = (parsed.length + ds.length) % 512) := by
  intro ds
  induction ds with
  | nil =>
    intro parsed total h
    refine ⟨?_, by simp [indexLoop], parsed, rfl, ?_⟩
    · simp [indexLoop, Nat.div_eq_of_lt h, Nat.mod_eq_of_lt h]
    · simp [Nat.mod_eq_of_lt h]
  | cons d ds ih =>
    intro parsed total h
    have hlen : (parsed ++ [toBasicDocument dsid d]).length = parsed.length + 1 := by
      simp
    simp only [indexLoop, List.length_cons]
    by_cases hth : FEED_BATCH_SIZE ≤ (parsed ++ [toBasicDocument dsid d]).length
    · rw [if_pos hth]
      have h511 : parsed.length = 511 := by
        unfold FEED_BATCH_SIZE at hth
        omega
      have h512 : (parsed ++ [toBasicDocument dsid d]).length = 512 := by omega
      rw [h512]
      obtain ⟨g1, g2, lb, glast, glen⟩ := ih [] (total + 512) (by simp)
      simp only [List.length_nil, Nat.zero_add] at g1 g2 glen
      have e1 : (parsed.length + (ds.length + 1)) / 512 = ds.length / 512 + 1 := by
        rw [h511]
        have e : 511 + (ds.length + 1) = ds.length + 512 := by omega
        rw [e, Nat.add_div_right _ (by norm_num)]
      have e2 : (parsed.length + (ds.length + 1)) % 512 = ds.length % 512 := by
        rw [h511]
        have e : 511 + (ds.length + 1) = ds.length + 512 := by omega
        rw [e, Nat.add_mod_right]
      refine ⟨?_, by omega, ?_⟩
      · simp only [List.map_cons, h512, g1, e1, e2, List.replicate_succ]
        simp
      · have hne : (indexLoop dsid ds [] (total + 512)).1 ≠ [] := by
          intro hc
          rw [hc] at glast
          simp at glast
        obtain ⟨x, xs, hx⟩ := List.exists_cons_of_ne_nil hne
        refine ⟨lb, ?_, by simpa [e2] using glen⟩
        rw [hx, List.getLast?_cons_cons, ← hx]
        exact glast
    · rw [if_neg hth]
      have hlt : (parsed ++ [toBasicDocument dsid d]).length < 512 := by
        unfold FEED_BATCH_SIZE at hth
        omega
      obtain ⟨g1, g2, lb, glast, glen⟩ := ih (parsed ++ [toBasicDocument dsid d]) total hlt
      have e : (parsed ++ [toBasicDocument dsid d]).length + ds.length
          = parsed.length + (ds.length + 1) := by
        rw [hlen]
        omega
      rw [e] at g1 glen
      exact ⟨g1, by omega, lb, glast, glen⟩

/-- Claim C4: the dispatcher's flush trace is one 512-record batch per full
512 records of the stream, followed by one final flush of the remainder; in
particular 1025 input records yield exactly three flushes of sizes 512, 512
and 1, in that order. -/
theorem indexAllDocuments_batch_sizes :
    (∀ (dsid : Nat) (documents : List PhabObject),
      (indexAllDocuments dsid documents).batches.map List.length
        = List.replicate (documents.length / 512) 512 ++ [documents.length % 512]) ∧
    (indexAllDocuments 0 (List.replicate 1025 sampleObj)).batches.map List.length
      = [512, 512, 1] := by
  have main : ∀ (dsid : Nat) (documents : List PhabObject),
      (indexAllDocuments dsid documents).batches.map List.length
        = List.replicate (documents.length / 512) 512 ++ [documents.length % 512] := by
    intro dsid documents
    have h := (indexLoop_spec dsid documents [] 0 (by simp)).1
    simpa [indexAllDocuments] using h
  refine ⟨main, ?_⟩
  rw [main]
  simp only [List.length_replicate]
  decide

/-- Claim C10: when the stream length is a multiple of 512 (the empty
stream included), the final feed call still happens and delivers an empty
batch, and the total-count report is emitted exactly when the number of
delivered records is positive. -/
theorem indexAllDocuments_final_empty_flush (dsid : Nat) (documents : List PhabObject)
    (h : 512 ∣ documents.length) :
    (indexAllDocuments dsid documents).batches.getLast? = some [] ∧
    ((indexAllDocuments dsid documents).reported = true ↔ 0 < documents.length) := by
  obtain ⟨g1, g2, lb, glast, glen⟩ := indexLoop_spec dsid documents [] 0 (by simp)
  have hmod : documents.length % 512 = 0 := by
    obtain ⟨c, hc⟩ := h
    omega
  constructor
  · have hlen0 : lb.length = 0 := by simpa [hmod] using glen
    have hlb : lb = [] := List.length_eq_zero.mp hlen0
    subst hlb
    simpa [indexAllDocuments] using glast
  · have ht : (indexLoop dsid documents [] 0).2 = documents.length := by
      simpa using g2
    simp [indexAllDocuments, ht]

/-- Witness for C10: on the empty stream the dispatcher's single feed call
delivers the empty batch and no count is reported. -/
theorem indexAllDocuments_final_empty_flush_witness :
    (indexAllDocuments 0 ([] : List PhabObject)).batches.getLast? = some [] ∧
    ((indexAllDocuments 0 ([] : List PhabObject)).reported = true ↔
      0 < ([] : List PhabObject).length) :=
  indexAllDocuments_final_empty_flush 0 [] (by decide)

end Phab
